import Mathlib

/-!
# Verification of `src/util/partial_products.rs`

Shallow embedding of the chunked partial-product module of the repository.
Rust `&[F]` slices become `List F`; the generic `F: Field` trait bound
becomes a `Field F` instance; `Vec<F>` results become `List F`.

Fallibility: the `partials.next().unwrap()` inside `check_partial_products`
is a genuine panic on exhaustion and the trailing `debug_assert!(partials.
next().is_none())` aborts (in debug builds) when claimed partials remain,
so `check_partial_products` is embedded with an `Option` result that is
`none` exactly when one of those two branches is reached.  The entry
`debug_assert!(max_degree > 1)` preconditions are carried as hypotheses
`1 < max_degree` of the theorems, matching the spec's contract reading.
-/

namespace PartialProducts

/-- Worker for `chunksExact`, structurally recursive on a fuel argument so
that the definition reduces by kernel computation; `fuel ≥ l.length` makes
the fuel irrelevant (`chunksExactFuel_congr`). -/
def chunksExactFuel (k : Nat) : Nat → List α → List (List α)
  | 0, _ => []
  | fuel + 1, l =>
    if 0 < k ∧ k ≤ l.length then
      l.take k :: chunksExactFuel k fuel (l.drop k)
    else []

/-- Rust's `slice::chunks_exact(k)`: consecutive chunks of exactly `k`
elements, the trailing remainder (fewer than `k` elements) discarded.
(`chunks_exact(0)` panics in Rust; it is never reached here since every
caller passes `max_degree > 1`.) -/
def chunksExact (k : Nat) (l : List α) : List (List α) :=
  chunksExactFuel k l.length l

/-- The loop body of `partial_products`: `acc *= chunk.prod(); res.push(acc)`
for each chunk in order, accumulator threaded through. -/
def ppLoop (acc : F) [Field F] : List (List F) → List F
  | [] => []
  | c :: cs =>
    let acc2 := acc * c.prod
    acc2 :: ppLoop acc2 cs

/-- `partial_products(v, max_degree)` from the source: running product over
chunks of exactly `max_degree` elements, accumulator initialised to `ONE`. -/
def partial_products [Field F] (v : List F) (max_degree : Nat) : List F :=
  ppLoop 1 (chunksExact max_degree v)

/-- `num_partial_products(n, max_degree)` from the source:
`(num_chunks, num_chunks * chunk_size)` with `num_chunks = n / chunk_size`. -/
def num_partial_products (n : Nat) (max_degree : Nat) : Nat × Nat :=
  let chunk_size := max_degree
  let num_chunks := n / chunk_size
  (num_chunks, num_chunks * chunk_size)

/-- The loop of `check_partial_products`, over the zipped chunk list and the
claimed-partials iterator.  Returns `none` when `partials.next().unwrap()`
panics (iterator exhausted inside the loop); otherwise returns the residual
list together with the partials left unconsumed by the loop. -/
def cppLoop [Field F] (acc : F) :
    List (List F × List F) → List F → Option (List F × List F)
  | [], ps => some ([], ps)
  | _ :: _, [] => none
  | (nc, dc) :: rest, newAcc :: ps =>
    let acc2 := acc * nc.prod
    match cppLoop newAcc rest ps with
    | none => none
    | some (r, leftover) => some ((acc2 - newAcc * dc.prod) :: r, leftover)

/-- `check_partial_products` from the source.  The final
`debug_assert!(partials.next().is_none())` is modelled by requiring the
leftover partials to be empty; otherwise the call aborts (`none`). -/
def check_partial_products [Field F] (numerators denominators partials : List F)
    (acc : F) (max_degree : Nat) : Option (List F) :=
  match cppLoop acc
      ((chunksExact max_degree numerators).zip (chunksExact max_degree denominators))
      partials with
  | some (r, []) => some r
  | _ => none

/-- Modelled from the spec: `CircuitBuilder::mul_many_extension`, evaluated on
the concrete witness assignment of its argument targets, computes the product
of the underlying extension-field values (the circuit builder itself is not
part of this module's source). -/
def mul_many_extension [Field F] (l : List F) : F := l.prod

/-- Modelled from the spec: `CircuitBuilder::mul_extension` evaluated on
concrete witness assignments computes the product of the two underlying
values. -/
def mul_extension [Field F] (a b : F) : F := a * b

/-- Modelled from the spec: `CircuitBuilder::mul_sub_extension a b c`
evaluated on concrete witness assignments computes `a * b - c` on the
underlying values. -/
def mul_sub_extension [Field F] (a b c : F) : F := a * b - c

/-- The loop of `check_partial_products_recursively`, with each builder call
replaced by its witness-level evaluation (`mul_many_extension`,
`mul_extension`, `mul_sub_extension`). -/
def cpprLoop [Field F] (acc : F) :
    List (List F × List F) → List F → Option (List F × List F)
  | [], ps => some ([], ps)
  | _ :: _, [] => none
  | (nc, dc) :: rest, newAcc :: ps =>
    let nume_product := mul_many_extension nc
    let deno_product := mul_many_extension dc
    let new_acc_deno := mul_extension newAcc deno_product
    match cpprLoop newAcc rest ps with
    | none => none
    | some (r, leftover) =>
      some (mul_sub_extension acc nume_product new_acc_deno :: r, leftover)

/-- `check_partial_products_recursively` from the source, evaluated on
concrete witness assignments for its targets. -/
def check_partial_products_recursively [Field F]
    (numerators denominators partials : List F)
    (acc : F) (max_degree : Nat) : Option (List F) :=
  match cpprLoop acc
      ((chunksExact max_degree numerators).zip (chunksExact max_degree denominators))
      partials with
  | some (r, []) => some r
  | _ => none

/-! ## Structural lemmas about the embedding -/

theorem chunksExactFuel_spec {α : Type} (k : Nat) (hk : 0 < k) :
    ∀ (fuel : Nat) (l : List α), l.length ≤ fuel →
      chunksExactFuel k fuel l
        = (List.range (l.length / k)).map fun i => (l.drop (k * i)).take k := by
  intro fuel
  induction fuel with
  | zero =>
    intro l hl
    have h0 : l.length = 0 := Nat.le_zero.mp hl
    simp [chunksExactFuel, h0]
  | succ fuel ih =>
    intro l hl
    by_cases h : k ≤ l.length
    · have hdiv : l.length / k = (l.length - k) / k + 1 := Nat.div_eq_sub_div hk h
      have hdrop : (l.drop k).length = l.length - k := by simp
      rw [chunksExactFuel, if_pos ⟨hk, h⟩, ih (l.drop k) (by omega), hdrop, hdiv,
        List.range_succ_eq_map, List.map_cons, List.map_map]
      refine congrArg₂ _ (by simp) ?_
      refine List.map_congr_left fun i _ => ?_
      simp only [Function.comp_apply, List.drop_drop]
      have : k + k * i = k * (i + 1) := by ring
      rw [this]
    · have hdiv : l.length / k = 0 := Nat.div_eq_of_lt (Nat.lt_of_not_le h)
      rw [chunksExactFuel, if_neg (by omega), hdiv]
      simp

theorem chunksExact_eq {α : Type} {k : Nat} (hk : 0 < k) (l : List α) :
    chunksExact k l = (List.range (l.length / k)).map fun i => (l.drop (k * i)).take k :=
  chunksExactFuel_spec k hk l.length l le_rfl

theorem chunksExact_length {α : Type} {k : Nat} (hk : 0 < k) (l : List α) :
    (chunksExact k l).length = l.length / k := by
  rw [chunksExact_eq hk]
  simp

theorem chunksExact_getD {α : Type} {k : Nat} (hk : 0 < k) (l : List α) {i : Nat}
    (hi : i < l.length / k) :
    (chunksExact k l).getD i [] = (l.drop (k * i)).take k := by
  have hlen : i < (chunksExact k l).length := by rw [chunksExact_length hk]; exact hi
  rw [List.getD_eq_getElem _ _ hlen]
  rw [List.getElem_of_eq (chunksExact_eq hk l) hlen]
  simp

theorem flatten_take_chunk_range {α : Type} (k : Nat) (l : List α) :
    ∀ m : Nat, (((List.range m).map fun i => (l.drop (k * i)).take k).flatten)
      = l.take (k * m) := by
  intro m
  induction m with
  | zero => simp
  | succ m ih =>
    rw [List.range_succ, List.map_append, List.flatten_append, ih]
    have : k * (m + 1) = k * m + k := by ring
    rw [this, List.take_add]
    simp

theorem chunksExact_take_flatten {α : Type} {k : Nat} (hk : 0 < k) (l : List α)
    {m : Nat} (hm : m ≤ l.length / k) :
    ((chunksExact k l).take m).flatten = l.take (k * m) := by
  rw [chunksExact_eq hk, ← List.map_take, List.take_range,
    Nat.min_eq_left hm, flatten_take_chunk_range]

theorem chunksExact_flatten {α : Type} {k : Nat} (hk : 0 < k) (l : List α) :
    (chunksExact k l).flatten = l.take (k * (l.length / k)) := by
  rw [← chunksExact_take_flatten hk l (m := l.length / k) le_rfl]
  congr 1
  rw [← chunksExact_length hk l, List.take_length]

theorem chunksExact_subset {α : Type} {k : Nat} (hk : 0 < k) (l : List α)
    {c : List α} (hc : c ∈ chunksExact k l) : ∀ x ∈ c, x ∈ l := by
  rw [chunksExact_eq hk] at hc
  obtain ⟨i, _, rfl⟩ := List.mem_map.mp hc
  intro x hx
  exact List.drop_subset _ _ (List.take_subset _ _ hx)

theorem ppLoop_length {F : Type} [Field F] :
    ∀ (cs : List (List F)) (acc : F), (ppLoop acc cs).length = cs.length := by
  intro cs
  induction cs with
  | nil => intro acc; rfl
  | cons c cs ih => intro acc; simp [ppLoop, ih]

theorem ppLoop_getD {F : Type} [Field F] :
    ∀ (cs : List (List F)) (acc : F) (i : Nat), i < cs.length →
      (ppLoop acc cs).getD i 0 = acc * ((cs.take (i + 1)).map List.prod).prod := by
  intro cs
  induction cs with
  | nil => intro acc i hi; simp at hi
  | cons c cs ih =>
    intro acc i hi
    cases i with
    | zero => simp [ppLoop]
    | succ i =>
      have hi2 : i < cs.length := by simpa using hi
      simp only [ppLoop, List.getD_cons_succ]
      rw [ih _ i hi2]
      simp [mul_assoc]

theorem getLast?_cons_of_ne_nil {α : Type} (x : α) {l : List α} (h : l ≠ []) :
    (x :: l).getLast? = l.getLast? := by
  cases l with
  | nil => exact absurd rfl h
  | cons a l => exact List.getLast?_cons_cons

theorem ppLoop_getLast? {F : Type} [Field F] :
    ∀ (cs : List (List F)) (acc : F), cs ≠ [] →
      (ppLoop acc cs).getLast? = some (acc * (cs.map List.prod).prod) := by
  intro cs
  induction cs with
  | nil => intro acc h; exact absurd rfl h
  | cons c cs ih =>
    intro acc _
    cases cs with
    | nil => simp [ppLoop]
    | cons c2 cs' =>
      have htail := ih (acc * c.prod) (by simp)
      have hne : ppLoop (acc * c.prod) (c2 :: cs') ≠ [] := by
        intro hcon
        have := ppLoop_length (F := F) (c2 :: cs') (acc * c.prod)
        rw [hcon] at this
        simp at this
      show ((acc * c.prod) :: ppLoop (acc * c.prod) (c2 :: cs')).getLast? = _
      rw [getLast?_cons_of_ne_nil _ hne, htail]
      simp [mul_assoc]

theorem cppLoop_some {F : Type} [Field F] :
    ∀ (chunks : List (List F × List F)) (ps : List F) (acc : F),
      ps.length = chunks.length →
      ∃ r, cppLoop acc chunks ps = some (r, []) ∧ r.length = chunks.length := by
  intro chunks
  induction chunks with
  | nil =>
    intro ps acc h
    exact ⟨[], by simp [cppLoop, List.length_eq_zero.mp h], rfl⟩
  | cons ch rest ih =>
    intro ps acc h
    obtain ⟨nc, dc⟩ := ch
    cases ps with
    | nil => simp at h
    | cons p ps' =>
      obtain ⟨r, hr, hlen⟩ := ih ps' p (by simpa using h)
      exact ⟨(acc * nc.prod - p * dc.prod) :: r, by simp [cppLoop, hr], by simp [hlen]⟩

theorem cppLoop_getD {F : Type} [Field F] :
    ∀ (chunks : List (List F × List F)) (ps : List F) (acc : F) (r : List F),
      cppLoop acc chunks ps = some (r, []) →
      ∀ i, i < r.length →
        r.getD i 0 = (if i = 0 then acc else ps.getD (i - 1) 0)
            * (chunks.getD i ([], [])).1.prod
          - ps.getD i 0 * (chunks.getD i ([], [])).2.prod := by
  intro chunks
  induction chunks with
  | nil =>
    intro ps acc r hr i hi
    simp only [cppLoop, Option.some_inj, Prod.mk.injEq] at hr
    rw [← hr.1] at hi
    simp at hi
  | cons ch rest ih =>
    intro ps acc r hr i hi
    obtain ⟨nc, dc⟩ := ch
    cases ps with
    | nil => simp [cppLoop] at hr
    | cons p ps' =>
      cases hrec : cppLoop p rest ps' with
      | none => rw [cppLoop] at hr; rw [hrec] at hr; simp at hr
      | some rl =>
        obtain ⟨r', leftover⟩ := rl
        rw [cppLoop] at hr
        rw [hrec] at hr
        simp only [Option.some_inj, Prod.mk.injEq] at hr
        obtain ⟨hrr, hleft⟩ := hr
        subst hleft
        rw [← hrr] at hi ⊢
        cases i with
        | zero => simp
        | succ i =>
          have hi2 : i < r'.length := by simpa using hi
          have := ih ps' p r' hrec i hi2
          cases i with
          | zero => simpa using this
          | succ j => simpa using this

theorem cppLoop_ppLoop {F : Type} [Field F] :
    ∀ (cs ds : List (List F)) (acc : F), cs.length = ds.length →
      (∀ c ∈ ds, c.prod = 1) →
      cppLoop acc (cs.zip ds) (ppLoop acc cs)
        = some (List.replicate cs.length 0, []) := by
  intro cs
  induction cs with
  | nil => intro ds acc h hds; simp [cppLoop, ppLoop]
  | cons c cs ih =>
    intro ds acc h hds
    cases ds with
    | nil => simp at h
    | cons d ds' =>
      have hd1 : d.prod = 1 := hds d (by simp)
      have htail := ih ds' (acc * c.prod) (by simpa using h)
        (fun x hx => hds x (by simp [hx]))
      simp only [List.zip_cons_cons, ppLoop, List.length_cons, List.replicate_succ]
      simp [cppLoop, htail, hd1]

theorem chunksExact_replicate_prod {F : Type} [Field F] {k n : Nat} (hk : 0 < k) :
    ∀ c ∈ chunksExact k (List.replicate n (1 : F)), c.prod = 1 := fun c hc =>
  List.prod_eq_one fun x hx =>
    List.eq_of_mem_replicate (chunksExact_subset hk _ hc x hx)

theorem chunksExact_take_self {α : Type} {k : Nat} (hk : 0 < k) (l : List α) :
    chunksExact k (l.take (l.length / k * k)) = chunksExact k l := by
  have hm : l.length / k * k ≤ l.length := Nat.div_mul_le_self _ _
  have hlen : (l.take (l.length / k * k)).length = l.length / k * k := by
    simp [Nat.min_eq_left hm]
  rw [chunksExact_eq hk, chunksExact_eq hk, hlen, Nat.mul_div_cancel _ hk]
  refine List.map_congr_left fun i hi => ?_
  have hi2 : i < l.length / k := List.mem_range.mp hi
  rw [List.drop_take, List.take_take]
  congr 1
  have hb : k * (i + 1) ≤ l.length / k * k := by
    calc k * (i + 1) = (i + 1) * k := by ring
    _ ≤ l.length / k * k := Nat.mul_le_mul_right _ (by omega)
  have hb2 : k ≤ l.length / k * k - k * i := by
    refine Nat.le_sub_of_add_le ?_
    rw [Nat.add_comm]
    rwa [Nat.mul_succ] at hb
  exact min_eq_left hb2

/-! ## The claims -/

/-- C1: for every field-element sequence `v` of length `n` and every
`max_degree > 1`, `partial_products v max_degree` has length `⌊n / max_degree⌋`
and its `i`-th element is the product of `v[0 .. (i+1)*max_degree]` (chunks `0`
through `i`), the trailing remainder being discarded. -/
theorem C1_partial_products_spec {F : Type} [Field F] (v : List F) (d : Nat)
    (hd : 1 < d) :
    (partial_products v d).length = v.length / d ∧
    ∀ i, i < (partial_products v d).length →
      (partial_products v d).getD i 0 = (v.take ((i + 1) * d)).prod := by
  have hk : 0 < d := by omega
  constructor
  · rw [partial_products, ppLoop_length, chunksExact_length hk]
  · intro i hi
    have hi2 : i < v.length / d := by
      rwa [partial_products, ppLoop_length, chunksExact_length hk] at hi
    rw [partial_products,
      ppLoop_getD _ _ i (by rwa [chunksExact_length hk]), one_mul,
      ← List.prod_flatten, chunksExact_take_flatten hk v (by omega),
      Nat.mul_comm d (i + 1)]

/-- C8: `num_partial_products n d` returns `(⌊n/d⌋, ⌊n/d⌋ * d)`; the first
component is the length of `partial_products v d` for every `v` of length `n`,
and the consumed count is `num_chunks * d ≤ n`. -/
theorem C8_num_partial_products_spec {F : Type} [Field F] (n d : Nat) (hd : 1 < d)
    (v : List F) (hv : v.length = n) :
    num_partial_products n d = (n / d, n / d * d) ∧
    (num_partial_products n d).1 = (partial_products v d).length ∧
    (num_partial_products n d).2 = (num_partial_products n d).1 * d ∧
    (num_partial_products n d).2 ≤ n := by
  have hk : 0 < d := by omega
  refine ⟨rfl, ?_, rfl, Nat.div_mul_le_self n d⟩
  rw [partial_products, ppLoop_length, chunksExact_length hk, hv]
  rfl

/-- C9 (implicit): `partial_products` never reads the trailing remainder:
the result equals the result on the truncation to `⌊n/d⌋*d` elements, two
inputs of equal length agreeing on their first `⌊n/d⌋*d` elements give
identical outputs, and an input shorter than `d` gives `[]`. -/
theorem C9_remainder_not_read {F : Type} [Field F] (d : Nat) (hd : 1 < d)
    (v w u : List F) (hlw : v.length = w.length)
    (htake : v.take (v.length / d * d) = w.take (w.length / d * d))
    (hu : u.length < d) :
    partial_products v d = partial_products (v.take (v.length / d * d)) d ∧
    partial_products v d = partial_products w d ∧
    partial_products u d = [] := by
  have hk : 0 < d := by omega
  have h1 : ∀ x : List F,
      partial_products x d = partial_products (x.take (x.length / d * d)) d := by
    intro x
    rw [partial_products, partial_products, chunksExact_take_self hk]
  refine ⟨h1 v, ?_, ?_⟩
  · rw [h1 v, h1 w, htake]
  · rw [partial_products, chunksExact_eq hk, Nat.div_eq_of_lt hu]
    rfl

/-- C7: the tail law: whenever `partial_products v d` is non-empty, its last
element times the product of the unconsumed tail
`v[(num_partial_products (len v) d).2 ..]` equals the product of all of `v`. -/
theorem C7_tail_law {F : Type} [Field F] (v : List F) (d : Nat) (hd : 1 < d)
    (hne : partial_products v d ≠ []) :
    (partial_products v d).getLast hne
        * (v.drop (num_partial_products v.length d).2).prod
      = v.prod := by
  have hk : 0 < d := by omega
  have hcs : chunksExact d v ≠ [] := by
    intro hcon
    rw [partial_products, hcon] at hne
    exact hne rfl
  have hlast : (partial_products v d).getLast?
      = some (1 * ((chunksExact d v).map List.prod).prod) :=
    ppLoop_getLast? (chunksExact d v) 1 hcs
  rw [List.getLast?_eq_getLast_of_ne_nil hne] at hlast
  have hlast2 : (partial_products v d).getLast hne
      = ((chunksExact d v).map List.prod).prod := by
    have h3 := Option.some_inj.mp hlast
    rwa [one_mul] at h3
  rw [hlast2, ← List.prod_flatten, chunksExact_flatten hk]
  have hco : d * (v.length / d) = (num_partial_products v.length d).2 := by
    simp [num_partial_products, Nat.mul_comm]
  rw [hco]
  exact List.prod_take_mul_prod_drop v _

theorem zip_getD {α β : Type} (l₁ : List α) (l₂ : List β) (a : α) (b : β) {i : Nat}
    (h1 : i < l₁.length) (h2 : i < l₂.length) :
    (l₁.zip l₂).getD i (a, b) = (l₁.getD i a, l₂.getD i b) := by
  have hz : i < (l₁.zip l₂).length := by
    rw [List.length_zip, inf_eq_min]
    omega
  rw [List.getD_eq_getElem _ _ hz, List.getD_eq_getElem _ _ h1,
    List.getD_eq_getElem _ _ h2, List.getElem_zip]

/-- Shared characterization of `check_partial_products` used by several of the
claims below: the call succeeds and residual `i` is
`acc_i * (num chunk i).prod − partials[i] * (den chunk i).prod` with
`acc_0 = acc` and `acc_{i+1} = partials[i]`. -/
theorem check_spec_aux {F : Type} [Field F]
    (nums denos partials : List F) (acc : F) (d : Nat)
    (hd : 1 < d) (hlen : nums.length = denos.length)
    (hp : partials.length = nums.length / d) :
    ∃ r, check_partial_products nums denos partials acc d = some r ∧
      r.length = nums.length / d ∧
      ∀ i, i < r.length →
        r.getD i 0 =
          (if i = 0 then acc else partials.getD (i - 1) 0)
              * ((nums.drop (i * d)).take d).prod
            - partials.getD i 0 * ((denos.drop (i * d)).take d).prod := by
  have hk : 0 < d := by omega
  set chunks := (chunksExact d nums).zip (chunksExact d denos) with hchunks
  have hclen : chunks.length = nums.length / d := by
    rw [hchunks, List.length_zip, chunksExact_length hk, chunksExact_length hk,
      ← hlen, inf_eq_min, Nat.min_self]
  obtain ⟨r, hr, hrlen⟩ := cppLoop_some chunks partials acc (hp.trans hclen.symm)
  refine ⟨r, ?_, hrlen.trans hclen, ?_⟩
  · simp only [check_partial_products]
    rw [← hchunks, hr]
  · intro i hi
    have hic : i < nums.length / d := by
      rw [← hclen, ← hrlen]
      exact hi
    have h1 : i < (chunksExact d nums).length := by
      rw [chunksExact_length hk]
      exact hic
    have h2 : i < (chunksExact d denos).length := by
      rw [chunksExact_length hk, ← hlen]
      exact hic
    rw [cppLoop_getD chunks partials acc r hr i hi, hchunks,
      zip_getD _ _ _ _ h1 h2, chunksExact_getD hk nums hic,
      chunksExact_getD hk denos (by rw [← hlen]; exact hic),
      Nat.mul_comm d i]

/-- C2: under the equal-length and layout preconditions,
`check_partial_products` returns one residual per chunk in chunk order, where
residual `i` is `acc_i * (num chunk i).prod − partials[i] * (den chunk i).prod`
with `acc_0` the initial accumulator and `acc_{i+1} = partials[i]` (the claimed
value, not the recomputed one, is carried to the next chunk). -/
theorem C2_check_partial_products_spec {F : Type} [Field F]
    (nums denos partials : List F) (acc : F) (d : Nat)
    (hd : 1 < d) (hlen : nums.length = denos.length)
    (hp : partials.length = nums.length / d) :
    ∃ r, check_partial_products nums denos partials acc d = some r ∧
      r.length = nums.length / d ∧
      ∀ i, i < r.length →
        r.getD i 0 =
          (if i = 0 then acc else partials.getD (i - 1) 0)
              * ((nums.drop (i * d)).take d).prod
            - partials.getD i 0 * ((denos.drop (i * d)).take d).prod :=
  check_spec_aux nums denos partials acc d hd hlen hp

/-- C3: round-trip: if `partials = partial_products v d` and the denominators
are all the multiplicative identity, then `check_partial_products` with the
initial accumulator `1` returns all-zero residuals. -/
theorem C3_round_trip {F : Type} [Field F] (v : List F) (d : Nat) (hd : 1 < d) :
    check_partial_products v (List.replicate v.length 1) (partial_products v d) 1 d
      = some (List.replicate (v.length / d) 0) := by
  have hk : 0 < d := by omega
  have hlen : (chunksExact d v).length
      = (chunksExact d (List.replicate v.length (1 : F))).length := by
    rw [chunksExact_length hk, chunksExact_length hk, List.length_replicate]
  have hloop := cppLoop_ppLoop (chunksExact d v)
    (chunksExact d (List.replicate v.length (1 : F))) 1 hlen
    (chunksExact_replicate_prod hk)
  simp only [check_partial_products, partial_products]
  rw [hloop, chunksExact_length hk]

theorem cpprLoop_eq_cppLoop {F : Type} [Field F] :
    ∀ (chunks : List (List F × List F)) (ps : List F) (acc : F),
      cpprLoop acc chunks ps = cppLoop acc chunks ps := by
  intro chunks
  induction chunks with
  | nil => intro ps acc; rfl
  | cons ch rest ih =>
    intro ps acc
    obtain ⟨nc, dc⟩ := ch
    cases ps with
    | nil => rfl
    | cons p ps' =>
      simp only [cpprLoop, cppLoop, mul_many_extension, mul_extension,
        mul_sub_extension, ih]

/-- C4: `check_partial_products_recursively` performs the identical algorithm
to `check_partial_products`: evaluated on concrete witness assignments (the
builder calls computing products and `a*b − c`), its residuals are identical
to those of `check_partial_products` on the same numeric inputs. -/
theorem C4_recursive_equiv {F : Type} [Field F]
    (numerators denominators partials : List F) (acc : F) (max_degree : Nat) :
    check_partial_products_recursively numerators denominators partials acc max_degree
      = check_partial_products numerators denominators partials acc max_degree := by
  simp only [check_partial_products_recursively, check_partial_products,
    cpprLoop_eq_cppLoop]

/-- C6 (amended): when the claimed partials sequence has length exactly
`min(⌊len(numerators)/max_degree⌋, ⌊len(denominators)/max_degree⌋)` — the
number of chunk pairs actually iterated — the per-chunk unwrap of the next
claimed partial never fails and the post-loop exhaustion check never fails:
the call returns a result instead of aborting. -/
theorem C6_exhaustion {F : Type} [Field F]
    (nums denos partials : List F) (acc : F) (d : Nat) (hd : 1 < d)
    (hp : partials.length = min (nums.length / d) (denos.length / d)) :
    ∃ r, check_partial_products nums denos partials acc d = some r := by
  have hk : 0 < d := by omega
  have hclen : ((chunksExact d nums).zip (chunksExact d denos)).length
      = min (nums.length / d) (denos.length / d) := by
    rw [List.length_zip, chunksExact_length hk, chunksExact_length hk, inf_eq_min]
  obtain ⟨r, hr, _⟩ := cppLoop_some _ partials acc (hp.trans hclen.symm)
  refine ⟨r, ?_⟩
  simp only [check_partial_products]
  rw [hr]

/-- C10 (implicit): with unequal-length numerator and denominator sequences no
error is signalled for the mismatch: the chunks are zipped, exactly
`min(⌊len(numerators)/d⌋, ⌊len(denominators)/d⌋)` chunks are processed, and
the residual vector has that length, provided the partials sequence supplies
that many claimed values. -/
theorem C10_unequal_lengths {F : Type} [Field F]
    (nums denos partials : List F) (acc : F) (d : Nat) (hd : 1 < d)
    (hp : partials.length = min (nums.length / d) (denos.length / d)) :
    ∃ r, check_partial_products nums denos partials acc d = some r ∧
      r.length = min (nums.length / d) (denos.length / d) := by
  have hk : 0 < d := by omega
  have hclen : ((chunksExact d nums).zip (chunksExact d denos)).length
      = min (nums.length / d) (denos.length / d) := by
    rw [List.length_zip, chunksExact_length hk, chunksExact_length hk, inf_eq_min]
  obtain ⟨r, hr, hrlen⟩ := cppLoop_some _ partials acc (hp.trans hclen.symm)
  refine ⟨r, ?_, hrlen.trans hclen⟩
  simp only [check_partial_products]
  rw [hr]

/-- C5 (amended): for every input on which `check_partial_products` returns
all-zero residuals (under the equal-length and layout preconditions), changing
the single claimed partial at an index `j` whose denominator chunk has
non-zero product to any different field value makes at least one returned
residual non-zero.  (Without the non-zero denominator-chunk-product condition
the statement fails, see the counterexample.) -/
theorem C5_tamper_sensitivity {F : Type} [Field F]
    (nums denos partials : List F) (acc p2 : F) (d j : Nat)
    (hd : 1 < d) (hlen : nums.length = denos.length)
    (hp : partials.length = nums.length / d)
    (r : List F)
    (hr : check_partial_products nums denos partials acc d = some r)
    (hzero : ∀ x ∈ r, x = 0)
    (hj : j < partials.length)
    (hne : partials.getD j 0 ≠ p2)
    (hdeno : ((denos.drop (j * d)).take d).prod ≠ 0) :
    ∃ r2, check_partial_products nums denos (partials.set j p2) acc d = some r2 ∧
      ∃ x ∈ r2, x ≠ 0 := by
  obtain ⟨r', hr', hrlen', hget'⟩ := check_spec_aux nums denos partials acc d hd hlen hp
  rw [hr] at hr'
  obtain rfl : r = r' := Option.some_inj.mp hr'
  have hp2len : (partials.set j p2).length = nums.length / d := by
    rw [List.length_set]
    exact hp
  obtain ⟨r2, hr2, hrlen2, hget2⟩ :=
    check_spec_aux nums denos (partials.set j p2) acc d hd hlen hp2len
  refine ⟨r2, hr2, ?_⟩
  have hjr2 : j < r2.length := by
    rw [hrlen2, ← hp]
    exact hj
  refine ⟨r2.getD j 0, ?_, ?_⟩
  · rw [List.getD_eq_getElem _ _ hjr2]
    exact List.getElem_mem _
  · rw [hget2 j hjr2]
    have hA : (if j = 0 then acc else (partials.set j p2).getD (j - 1) 0)
        = (if j = 0 then acc else partials.getD (j - 1) 0) := by
      cases j with
      | zero => rfl
      | succ m =>
        simp only [Nat.succ_ne_zero, if_false, Nat.add_sub_cancel]
        have hm : m < partials.length := by omega
        have hm2 : m < (partials.set (m + 1) p2).length := by
          rw [List.length_set]
          omega
        rw [List.getD_eq_getElem _ _ hm2, List.getD_eq_getElem _ _ hm]
        exact List.getElem_set_ne (by omega) _
    have hpj : (partials.set j p2).getD j 0 = p2 := by
      have hjs : j < (partials.set j p2).length := by
        rw [List.length_set]
        exact hj
      rw [List.getD_eq_getElem _ _ hjs]
      exact List.getElem_set_self _
    have hjr1 : j < r.length := by
      rw [hrlen', ← hp]
      exact hj
    have h0 : r.getD j 0 = 0 := by
      refine hzero _ ?_
      rw [List.getD_eq_getElem _ _ hjr1]
      exact List.getElem_mem _
    rw [hget' j hjr1] at h0
    rw [hA, hpj]
    intro hcon
    apply hne
    have hsub : (partials.getD j 0 - p2) * ((denos.drop (j * d)).take d).prod = 0 := by
      linear_combination hcon - h0
    rcases mul_eq_zero.mp hsub with h | h
    · exact sub_eq_zero.mp h
    · exact absurd h hdeno

/-! ## Concrete counterexamples and witnesses, over the field `ZMod 5` -/

instance fact_prime_five : Fact (Nat.Prime 5) := ⟨by norm_num⟩

/-- The spec's concrete scenario, with values reduced mod 5
(`[2, 24, 720] ≡ [2, 4, 0]` and `[6, 720] ≡ [1, 0]`). -/
theorem partial_products_scenario :
    partial_products ([1, 2, 3, 4, 5, 6] : List (ZMod 5)) 2 = [2, 4, 0] ∧
    partial_products ([1, 2, 3, 4, 5, 6] : List (ZMod 5)) 3 = [1, 0] ∧
    num_partial_products 6 2 = (3, 6) ∧
    num_partial_products 6 3 = (2, 6) ∧
    check_partial_products ([1, 2, 3, 4, 5, 6] : List (ZMod 5))
      [1, 1, 1, 1, 1, 1] [2, 4, 0] 1 2 = some [0, 0, 0] := by
  decide

theorem C1_witness :
    (partial_products ([1, 2, 3, 4, 5, 6] : List (ZMod 5)) 2).getD 2 0
      = (([1, 2, 3, 4, 5, 6] : List (ZMod 5)).take ((2 + 1) * 2)).prod :=
  (C1_partial_products_spec ([1, 2, 3, 4, 5, 6] : List (ZMod 5)) 2 (by decide)).2
    2 (by decide)

theorem C2_witness :
    ∃ r, check_partial_products ([1, 2, 3, 4] : List (ZMod 5)) [1, 1, 1, 1] [2, 4] 1 2
        = some r ∧
      r.length = ([1, 2, 3, 4] : List (ZMod 5)).length / 2 ∧
      ∀ i, i < r.length →
        r.getD i 0 =
          (if i = 0 then 1 else ([2, 4] : List (ZMod 5)).getD (i - 1) 0)
              * ((([1, 2, 3, 4] : List (ZMod 5)).drop (i * 2)).take 2).prod
            - ([2, 4] : List (ZMod 5)).getD i 0
              * ((([1, 1, 1, 1] : List (ZMod 5)).drop (i * 2)).take 2).prod :=
  C2_check_partial_products_spec [1, 2, 3, 4] [1, 1, 1, 1] [2, 4] 1 2
    (by decide) (by decide) (by decide)

theorem C3_witness :
    check_partial_products ([1, 2, 3] : List (ZMod 5))
        (List.replicate ([1, 2, 3] : List (ZMod 5)).length 1)
        (partial_products ([1, 2, 3] : List (ZMod 5)) 2) 1 2
      = some (List.replicate (([1, 2, 3] : List (ZMod 5)).length / 2) 0) :=
  C3_round_trip [1, 2, 3] 2 (by decide)

theorem C4_witness :
    check_partial_products_recursively ([1, 2] : List (ZMod 5)) [1, 1] [2] 1 2
      = check_partial_products ([1, 2] : List (ZMod 5)) [1, 1] [2] 1 2 :=
  C4_recursive_equiv [1, 2] [1, 1] [2] 1 2

/-- C5 counterexample: a run of `check_partial_products` whose residuals are
all zero, where changing the single claimed partial `2` to the different
value `3` still yields all-zero residuals (the denominator chunk product is
zero), refuting the claim as stated. -/
theorem C5_counterexample :
    check_partial_products ([0, 1] : List (ZMod 5)) [0, 1] [2] 1 2 = some [0] ∧
    check_partial_products ([0, 1] : List (ZMod 5)) [0, 1] [3] 1 2 = some [0] ∧
    (2 : ZMod 5) ≠ 3 := by
  decide

theorem C5_witness :
    ∃ r2, check_partial_products ([1, 2] : List (ZMod 5)) [1, 1]
        (([2] : List (ZMod 5)).set 0 3) 1 2 = some r2 ∧
      ∃ x ∈ r2, x ≠ 0 :=
  C5_tamper_sensitivity [1, 2] [1, 1] [2] 1 3 2 0 (by decide) (by decide) (by decide)
    [0] (by decide) (by decide) (by decide) (by decide) (by decide)

/-- C6 counterexample: the partials sequence `[1]` has length exactly
`⌊len(numerators) / max_degree⌋ = 1`, yet with an empty denominator sequence
zero chunk pairs are iterated, the claimed partial is left unconsumed and the
post-loop exhaustion check fails (the call aborts), refuting the claim as
stated. -/
theorem C6_counterexample :
    ([(1 : ZMod 5)] : List (ZMod 5)).length = ([1, 2] : List (ZMod 5)).length / 2 ∧
    check_partial_products ([1, 2] : List (ZMod 5)) ([] : List (ZMod 5)) [1] 1 2
      = none := by
  decide

theorem C6_witness :
    ∃ r, check_partial_products ([1, 2] : List (ZMod 5)) ([] : List (ZMod 5))
      ([] : List (ZMod 5)) 1 2 = some r :=
  C6_exhaustion [1, 2] [] [] 1 2 (by decide) (by decide)

theorem C7_witness :
    (partial_products ([1, 2, 3] : List (ZMod 5)) 2).getLast (by decide)
        * (([1, 2, 3] : List (ZMod 5)).drop
            (num_partial_products ([1, 2, 3] : List (ZMod 5)).length 2).2).prod
      = ([1, 2, 3] : List (ZMod 5)).prod :=
  C7_tail_law [1, 2, 3] 2 (by decide) (by decide)

theorem C8_witness :
    num_partial_products 6 2 = (6 / 2, 6 / 2 * 2) ∧
    (num_partial_products 6 2).1
        = (partial_products ([1, 2, 3, 4, 5, 6] : List (ZMod 5)) 2).length ∧
    (num_partial_products 6 2).2 = (num_partial_products 6 2).1 * 2 ∧
    (num_partial_products 6 2).2 ≤ 6 :=
  C8_num_partial_products_spec 6 2 (by decide) [1, 2, 3, 4, 5, 6] (by decide)

theorem C9_witness :
    partial_products ([1, 2, 3] : List (ZMod 5)) 2
        = partial_products (([1, 2, 3] : List (ZMod 5)).take
            (([1, 2, 3] : List (ZMod 5)).length / 2 * 2)) 2 ∧
    partial_products ([1, 2, 3] : List (ZMod 5)) 2
        = partial_products ([1, 2, 4] : List (ZMod 5)) 2 ∧
    partial_products ([3] : List (ZMod 5)) 2 = [] :=
  C9_remainder_not_read 2 (by decide) [1, 2, 3] [1, 2, 4] [3]
    (by decide) (by decide) (by decide)

theorem C10_witness :
    ∃ r, check_partial_products ([1, 2, 3, 4] : List (ZMod 5)) [1, 1] [2] 1 2
        = some r ∧
      r.length = min (([1, 2, 3, 4] : List (ZMod 5)).length / 2)
        (([1, 1] : List (ZMod 5)).length / 2) :=
  C10_unequal_lengths [1, 2, 3, 4] [1, 1] [2] 1 2 (by decide) (by decide)

end PartialProducts
